import Mathlib

/-!
Shallow embedding of the `choko` crate's routing core (`src/lib.rs`):
path-pattern compilation (`compile_path`), path matching (`match_path`),
route registration (`Choko::route`) and dispatch (`Choko::dispatch`),
together with the envelope adapters (`build_request`,
`build_apigw_response`, `error_response`).

Modelling conventions:
* Rust `String`/`&str` become Lean `String`; the `/`-splitting of
  `str::split('/')` is implemented structurally on `List Char` so that it
  evaluates by kernel reduction.
* `HashMap<String, String>` becomes an association list with
  insert-replaces-existing-binding semantics (`hmInsert`) and key lookup
  (`hmGet`); this models the observable lookup behaviour of the Rust map.
* `serde_json::Value` becomes the inductive `Json`.  JSON parsing and
  serialization are external capabilities of the program (`serde_json`),
  so the parser is a parameter (`parse : String → Option Json`) and an
  outbound body keeps its structured `Json` value (the code serializes it
  to text with `Value::to_string` at the boundary).
* `async` handler invocation is modelled by direct evaluation: a handler
  is a function `Request → Except String Response`, the `Err` side
  carrying the failure's description text (Rust `format!("{e}")`).
* Rust `str::to_uppercase` / the `http` crate's header-name lowercasing
  are modelled on ASCII (`toUpperStr`, `headerNameLower`), which is the
  range relevant to HTTP methods and header names.
-/

/-- Model of `serde_json::Value`. -/
inductive Json where
  | null : Json
  | bool : Bool → Json
  | num : Int → Json
  | str : String → Json
  | arr : List Json → Json
  | obj : List (String × Json) → Json

/-- The `Segment` enum of `src/lib.rs`: `Literal(String) | Param(String)`. -/
inductive Segment where
  | Literal : String → Segment
  | Param : String → Segment
deriving DecidableEq, Repr

/-- Rust `str::trim_matches('/')`: remove all leading and trailing `/`. -/
def trimSlashes (cs : List Char) : List Char :=
  ((cs.dropWhile (fun c => c = '/')).reverse.dropWhile (fun c => c = '/')).reverse

/-- Rust `str::split('/')` on a list of characters: split on `/`, keeping
empty pieces (`"a//b"` gives `["a", "", "b"]`, `""` gives `[""]`). -/
def splitSlash : List Char → List (List Char)
  | [] => [[]]
  | c :: rest =>
    let r := splitSlash rest
    if c = '/' then [] :: r
    else
      match r with
      | [] => [[c]]
      | h :: t => (c :: h) :: t

/-- The normalization shared by `compile_path` and `match_path`:
`s.trim_matches('/').split('/').filter(|s| !s.is_empty())`. -/
def pathComponents (s : String) : List String :=
  ((splitSlash (trimSlashes s.data)).filter (fun l => !l.isEmpty)).map
    (fun l => String.mk l)

/-- The per-component closure inside `compile_path`:
`if s.starts_with('{') && s.ends_with('}') { Param(s[1..len-1]) } else { Literal(s) }`.
`starts_with('{')` is "first character is `{`", `ends_with('}')` is
"last character is `}`", and the slice drops the first and last character. -/
def compileComponent (s : String) : Segment :=
  if s.data.head? = some '{' ∧ s.data.getLast? = some '}' then
    Segment.Param (String.mk (s.data.drop 1).dropLast)
  else
    Segment.Literal s

/-- `compile_path` of `src/lib.rs`. -/
def compile_path (pattern : String) : List Segment :=
  (pathComponents pattern).map compileComponent

/-- `HashMap::insert` modelled on an association list: replace the binding
of the key if present, otherwise add one. -/
def hmInsert : List (String × String) → String → String → List (String × String)
  | [], k, v => [(k, v)]
  | (k', v') :: rest, k, v =>
    if k' = k then (k, v) :: rest else (k', v') :: hmInsert rest k v

/-- `HashMap::get` modelled on an association list. -/
def hmGet (m : List (String × String)) (k : String) : Option String :=
  (m.find? (fun p => p.1 = k)).map (fun p => p.2)

/-- The pairwise loop of `match_path`: walk segments and path components
together, failing on a literal mismatch and inserting a binding for each
parameter. `acc` is the `params` map being built. -/
def matchSegs : List Segment → List String → List (String × String) →
    Option (List (String × String))
  | [], [], acc => some acc
  | Segment.Literal lit :: segs, part :: parts, acc =>
    if lit = part then matchSegs segs parts acc else none
  | Segment.Param name :: segs, part :: parts, acc =>
    matchSegs segs parts (hmInsert acc name part)
  | _, _, _ => none

/-- `match_path` of `src/lib.rs`. -/
def match_path (segments : List Segment) (path : String) :
    Option (List (String × String)) :=
  let path_parts := pathComponents path
  if segments.isEmpty ∧ path_parts.isEmpty then some []
  else if segments.length ≠ path_parts.length then none
  else matchSegs segments path_parts []

example : compile_path "/users/\x7bid\x7d" =
    [Segment.Literal "users", Segment.Param "id"] := by decide
example : compile_path "/" = [] := by decide
example : compile_path "\x7b\x7d" = [Segment.Param ""] := by decide
example : match_path (compile_path "/users/\x7bid\x7d") "/users/42" =
    some [("id", "42")] := by decide
example : match_path (compile_path "/users/\x7bid\x7d") "/users" = none := by
  decide
example : match_path [] "/" = some [] := by decide

/-- The `Request` struct of `src/lib.rs` (maps as association lists). -/
structure Request where
  path_params : List (String × String)
  query_params : List (String × String)
  headers : List (String × String)
  body : Option String
  json_body : Option Json

/-- The `Response` struct of `src/lib.rs`. -/
structure Response where
  status_code : Int
  body : Json
  headers : List (String × String)

/-- ASCII model of Rust `char::to_uppercase` (HTTP methods are ASCII). -/
def asciiUpperChar (c : Char) : Char :=
  if 97 ≤ c.toNat ∧ c.toNat ≤ 122 then Char.ofNat (c.toNat - 32) else c

/-- ASCII lowercase of a character (the `http` crate lowercases ASCII
uppercase letters in header names). -/
def asciiLowerChar (c : Char) : Char :=
  if 65 ≤ c.toNat ∧ c.toNat ≤ 90 then Char.ofNat (c.toNat + 32) else c

/-- Rust `str::to_uppercase`, restricted to its ASCII behaviour. -/
def toUpperStr (s : String) : String := String.mk (s.data.map asciiUpperChar)

/-- A `Route` of `src/lib.rs`: pattern string (diagnostics only), method
set (upper-cased at registration), handler, compiled segments. -/
structure Route where
  path_pattern : String
  methods : List String
  handler : Request → Except String Response
  segments : List Segment

/-- The `Choko` application struct. -/
structure Choko where
  app_name : String
  routes : List Route

/-- `Choko::new`. -/
def Choko.new (app_name : String) : Choko := ⟨app_name, []⟩

/-- `Choko::route`: compile the pattern, upper-case the methods, append the
route.  Registration is total — there is no failure path. -/
def Choko.route (app : Choko) (path : String) (methods : List String)
    (handler : Request → Except String Response) : Choko :=
  { app with
      routes := app.routes ++
        [{ path_pattern := path
           methods := methods.map toUpperStr
           handler := handler
           segments := compile_path path }] }

/-- Model of the inbound `ApiGatewayProxyRequest` (the fields `dispatch`
and `build_request` read). -/
structure ApiGatewayProxyRequest where
  http_method : String
  path : Option String
  query_string_parameters : List (String × String)
  headers : List (String × String)
  body : Option String

/-- Model of the outbound `ApiGatewayProxyResponse`.  `headers` is the
`http::HeaderMap` as an association list whose keys are already lowercase;
`body` keeps the structured value whose `to_string` serialization the code
wraps in `Body::Text`. -/
structure ApiGatewayProxyResponse where
  status_code : Int
  headers : List (String × String)
  body : Option Json

/-- Validity of one byte of an `http::HeaderName`: ASCII letters, digits,
or one of `! # $ % & ' * + - . ^ _ ` | ~` (the backquote is code 96). -/
def headerNameCharValid (c : Char) : Bool :=
  (97 ≤ c.toNat && c.toNat ≤ 122) || (65 ≤ c.toNat && c.toNat ≤ 90) ||
  (48 ≤ c.toNat && c.toNat ≤ 57) ||
  [33, 35, 36, 37, 38, 39, 42, 43, 45, 46, 94, 95, 96, 124, 126].contains c.toNat

/-- `http::header::HeaderName::from_bytes` succeeds: non-empty, all
characters valid. -/
def headerNameValid (s : String) : Bool :=
  !s.isEmpty && s.data.all headerNameCharValid

/-- The lowercase normalization `HeaderName::from_bytes` applies. -/
def headerNameLower (s : String) : String :=
  String.mk (s.data.map asciiLowerChar)

/-- `http::HeaderValue::from_str` succeeds: every byte is `≥ 32` and
`≠ 127`, or is TAB (9).  Bytes of a multi-byte UTF-8 character are all
`≥ 128`, hence valid, so the check is equivalently per character. -/
def headerValueValid (s : String) : Bool :=
  s.data.all fun c => (32 ≤ c.toNat && c.toNat != 127) || c.toNat == 9

/-- `Choko::build_request` (a `&self` method that does not use `self`).
`parse` is the external `serde_json::from_str(..).ok()` capability. -/
def build_request (parse : String → Option Json)
    (event : ApiGatewayProxyRequest)
    (path_params : List (String × String)) : Request :=
  let query_params :=
    event.query_string_parameters.foldl (fun m kv => hmInsert m kv.1 kv.2) []
  let headers := event.headers.foldl (fun m kv => hmInsert m kv.1 kv.2) []
  let body_str := event.body
  let json_body := body_str.bind parse
  { path_params := path_params
    query_params := query_params
    headers := headers
    body := body_str
    json_body := json_body }

/-- `Choko::build_apigw_response`: start the header map at
`content-type: application/json`, then insert each response header whose
name and value are valid for the transport (normalizing the name to
lowercase), silently dropping invalid ones. -/
def build_apigw_response (resp : Response) : ApiGatewayProxyResponse :=
  let headers := resp.headers.foldl
    (fun h kv =>
      if headerNameValid kv.1 && headerValueValid kv.2 then
        hmInsert h (headerNameLower kv.1) kv.2
      else h)
    [("content-type", "application/json")]
  { status_code := resp.status_code
    headers := headers
    body := some resp.body }

/-- `Choko::error_response`: JSON body `{"error": message}` with the
`content-type: application/json` header. -/
def error_response (status_code : Int) (message : String) :
    ApiGatewayProxyResponse :=
  { status_code := status_code
    headers := [("content-type", "application/json")]
    body := some (Json.obj [("error", Json.str message)]) }

/-- The outcome `dispatch` produces once a route is selected: invoke the
handler on the built request; encode success with `build_apigw_response`
and failure as a 500 `error_response`. -/
def handlerOutcome (parse : String → Option Json)
    (event : ApiGatewayProxyRequest) (r : Route)
    (path_params : List (String × String)) : ApiGatewayProxyResponse :=
  match r.handler (build_request parse event path_params) with
  | Except.ok response => build_apigw_response response
  | Except.error e => error_response 500 ("Internal Server Error: " ++ e)

/-- The route-scanning loop of `Choko::dispatch`, with the `path_matched`
flag threaded explicitly. -/
def dispatchLoop (parse : String → Option Json)
    (event : ApiGatewayProxyRequest) (method path : String) :
    List Route → Bool → ApiGatewayProxyResponse
  | [], path_matched =>
    if path_matched then error_response 405 "Method Not Allowed"
    else error_response 404 "Not Found"
  | r :: rest, path_matched =>
    match match_path r.segments path with
    | some path_params =>
      if r.methods.contains method then handlerOutcome parse event r path_params
      else dispatchLoop parse event method path rest true
    | none => dispatchLoop parse event method path rest path_matched

/-- `Choko::dispatch`: default the path to `/`, upper-case the method,
scan the route table in registration order.  The Rust function always
returns `Ok`, so the model is a total function into the envelope type. -/
def Choko.dispatch (parse : String → Option Json) (app : Choko)
    (event : ApiGatewayProxyRequest) : ApiGatewayProxyResponse :=
  dispatchLoop parse event (toUpperStr event.http_method)
    (event.path.getD "/") app.routes false

/-- Concrete handler for witnesses: always succeeds with body `"A"`. -/
def exHandlerA : Request → Except String Response :=
  fun _ => Except.ok ⟨200, Json.str "A", []⟩

/-- Concrete handler for witnesses: always succeeds with body `"B"`. -/
def exHandlerB : Request → Except String Response :=
  fun _ => Except.ok ⟨200, Json.str "B", []⟩

/-- Concrete handler for witnesses: always fails with description `boom`. -/
def exHandlerFail : Request → Except String Response :=
  fun _ => Except.error "boom"

/-- Concrete stand-in for the JSON-parse capability in witnesses:
`"1"` parses, everything else fails. -/
def exParse : String → Option Json :=
  fun s => if s = "1" then some (Json.num 1) else none

/-- Concrete inbound event for witnesses. -/
def mkEvent (method path : String) : ApiGatewayProxyRequest :=
  ⟨method, some path, [], [], none⟩

/-- Concrete two-route app for witnesses: both routes cover `/x`, the
first with `GET`, the second with `GET` and `POST`. -/
def exApp2 : Choko :=
  Choko.route (Choko.route (Choko.new "t") "/x" ["GET"] exHandlerA)
    "/x" ["GET", "POST"] exHandlerB

/-- Concrete one-route app for witnesses: `/fail` with `GET`, failing
handler. -/
def exAppFail : Choko :=
  Choko.route (Choko.new "t") "/fail" ["GET"] exHandlerFail

/-- The first route stored in `exApp2`. -/
def exRoute1 : Route :=
  { path_pattern := "/x", methods := ["GET"].map toUpperStr,
    handler := exHandlerA, segments := compile_path "/x" }

/-- The second route stored in `exApp2`. -/
def exRoute2 : Route :=
  { path_pattern := "/x", methods := ["GET", "POST"].map toUpperStr,
    handler := exHandlerB, segments := compile_path "/x" }

/-- The route stored in `exAppFail`. -/
def exRouteFail : Route :=
  { path_pattern := "/fail", methods := ["GET"].map toUpperStr,
    handler := exHandlerFail, segments := compile_path "/fail" }

/-- Concrete handler response for witnesses: one transport-valid custom
header and one header whose name contains a newline, which is invalid
for the transport. -/
def exResp : Response :=
  { status_code := 201, body := Json.str "ok",
    headers := [("X-Custom", "value1"), ("Bad\nName", "v")] }

/-- Concrete inbound event with a chosen raw body, for witnesses. -/
def exEventBody (b : Option String) : ApiGatewayProxyRequest :=
  ⟨"POST", some "/items", [], [], b⟩

/-! ## Helper lemmas -/

theorem stringEq_of_data {a b : String} (h : a.data = b.data) : a = b := by
  cases a; cases b; cases h; rfl

theorem dataAppend (s t : String) : (s ++ t).data = s.data ++ t.data := by
  cases s; cases t; rfl

theorem braceWrap_data (name : String) :
    ("\x7b" ++ name ++ "\x7d").data = '\x7b' :: (name.data ++ ['\x7d']) := by
  rw [dataAppend, dataAppend]
  rfl

theorem compileComponent_mk_brace (l : List Char) :
    compileComponent (String.mk ('\x7b' :: (l ++ ['\x7d']))) =
      Segment.Param (String.mk l) := by
  unfold compileComponent
  have hhead : ('\x7b' :: (l ++ ['\x7d'])).head? = some '\x7b' := rfl
  have hlast : ('\x7b' :: (l ++ ['\x7d'])).getLast? = some '\x7d' := by
    rw [← List.cons_append]
    exact List.getLast?_concat _
  rw [if_pos ⟨hhead, hlast⟩]
  have hdrop : (List.drop 1 ('\x7b' :: (l ++ ['\x7d']))).dropLast = l := by
    simp
  rw [hdrop]

theorem compileComponent_brace (name : String) :
    compileComponent ("\x7b" ++ name ++ "\x7d") = Segment.Param name := by
  have h : ("\x7b" ++ name ++ "\x7d") =
      String.mk ('\x7b' :: (name.data ++ ['\x7d'])) :=
    stringEq_of_data (braceWrap_data name)
  rw [h, compileComponent_mk_brace]

theorem compileComponent_not_brace (c : String)
    (h : ¬ ∃ name, c = "\x7b" ++ name ++ "\x7d") :
    compileComponent c = Segment.Literal c := by
  unfold compileComponent
  split
  case isTrue hcond =>
    exfalso
    apply h
    obtain ⟨h1, h2⟩ := hcond
    obtain ⟨ys, hys⟩ := List.getLast?_eq_some_iff.mp h2
    cases ys with
    | nil =>
      rw [hys] at h1
      simp at h1
    | cons a t =>
      have ha : a = '\x7b' := by
        rw [hys] at h1
        simpa using h1
      refine ⟨String.mk t, ?_⟩
      apply stringEq_of_data
      rw [braceWrap_data, hys, ha]
      simp
  case isFalse => rfl

/-! ## C5 — pattern compilation -/

/-- C5: compilation strips leading/trailing `/`, splits on `/`, discards
empty components (so `/a//b/` and `a/b` compile identically), and maps
each remaining component `c` to `Param name` exactly when `c` is written
`{name}` (opening and closing brace), and to `Literal c` verbatim
otherwise; `/users/{id}` compiles to `[Literal "users", Param "id"]`. -/
theorem compile_path_spec :
    (∀ p, compile_path p = (pathComponents p).map compileComponent) ∧
    (∀ name, compileComponent ("\x7b" ++ name ++ "\x7d") = Segment.Param name) ∧
    (∀ c, (¬ ∃ name, c = "\x7b" ++ name ++ "\x7d") →
      compileComponent c = Segment.Literal c) ∧
    compile_path "/a//b/" = compile_path "a/b" ∧
    compile_path "/users/\x7bid\x7d" = [Segment.Literal "users", Segment.Param "id"] :=
  ⟨fun _ => rfl, compileComponent_brace, compileComponent_not_brace,
   by decide, by decide⟩

/-- C5 witness: the component-mapping clauses of `compile_path_spec`
evaluated at `{id}` and at `users` (which is not of the form `{name}`). -/
theorem compile_path_spec_witness :
    compileComponent "\x7bid\x7d" = Segment.Param "id" ∧
    compileComponent "users" = Segment.Literal "users" := by
  constructor
  · have h := compile_path_spec.2.1 "id"
    simpa using h
  · refine compile_path_spec.2.2.1 "users" ?_
    rintro ⟨name, hname⟩
    have h := congrArg String.data hname
    rw [braceWrap_data] at h
    simp at h

/-! ## Association-list and matcher lemmas -/

theorem hmGet_hmInsert (m : List (String × String)) (k v n : String) :
    hmGet (hmInsert m k v) n = if k = n then some v else hmGet m n := by
  induction m with
  | nil =>
    by_cases h : k = n <;> simp [hmInsert, hmGet, List.find?, h]
  | cons kv rest ih =>
    obtain ⟨k', v'⟩ := kv
    simp only [hmInsert]
    by_cases h1 : k' = k
    · rw [if_pos h1]
      subst h1
      by_cases h2 : k' = n
      · subst h2
        simp [hmGet, List.find?]
      · simp [hmGet, List.find?, h2]
    · rw [if_neg h1]
      by_cases h2 : k' = n
      · subst h2
        have hk : ¬ k = k' := fun he => h1 he.symm
        simp [hmGet, List.find?, hk]
      · simpa [hmGet, List.find?, h2] using ih

theorem matchSegs_isSome (segs : List Segment) :
    ∀ parts acc, (matchSegs segs parts acc).isSome ↔
      (segs.length = parts.length ∧
        ∀ lit part, (Segment.Literal lit, part) ∈ segs.zip parts → lit = part) := by
  induction segs with
  | nil =>
    intro parts acc
    cases parts with
    | nil => simp [matchSegs]
    | cons p ps => simp [matchSegs]
  | cons seg segs ih =>
    intro parts acc
    cases parts with
    | nil => cases seg <;> simp [matchSegs]
    | cons part parts =>
      cases seg with
      | Literal lit =>
        by_cases h : lit = part
        · subst h
          rw [show matchSegs (Segment.Literal lit :: segs) (lit :: parts) acc =
            matchSegs segs parts acc from by simp [matchSegs]]
          rw [ih]
          constructor
          · rintro ⟨hlen, hrest⟩
            refine ⟨by simpa using hlen, ?_⟩
            intro l p hmem
            rw [List.zip_cons_cons, List.mem_cons] at hmem
            rcases hmem with heq | hmem
            · obtain ⟨he1, he2⟩ := Prod.mk.injEq .. ▸ heq
              cases he1
              exact he2.symm ▸ rfl
            · exact hrest l p hmem
          · rintro ⟨hlen, hall⟩
            refine ⟨by simpa using hlen, ?_⟩
            intro l p hmem
            exact hall l p (by rw [List.zip_cons_cons]; exact List.mem_cons_of_mem _ hmem)
        · rw [show matchSegs (Segment.Literal lit :: segs) (part :: parts) acc =
            none from by simp [matchSegs, h]]
          simp only [Option.isSome_none, Bool.false_eq_true, false_iff]
          rintro ⟨-, hall⟩
          exact h (hall lit part (by rw [List.zip_cons_cons]; exact List.mem_cons_self _ _))
      | Param name =>
        rw [show matchSegs (Segment.Param name :: segs) (part :: parts) acc =
          matchSegs segs parts (hmInsert acc name part) from by simp [matchSegs]]
        rw [ih]
        constructor
        · rintro ⟨hlen, hrest⟩
          refine ⟨by simpa using hlen, ?_⟩
          intro l p hmem
          rw [List.zip_cons_cons, List.mem_cons] at hmem
          rcases hmem with heq | hmem
          · exact absurd (congrArg Prod.fst heq) (by simp)
          · exact hrest l p hmem
        · rintro ⟨hlen, hall⟩
          refine ⟨by simpa using hlen, ?_⟩
          intro l p hmem
          exact hall l p (by rw [List.zip_cons_cons]; exact List.mem_cons_of_mem _ hmem)

theorem matchSegs_get_no_param (name : String) (segs : List Segment) :
    ∀ parts acc pp, matchSegs segs parts acc = some pp →
      (∀ q ∈ segs.zip parts, q.1 ≠ Segment.Param name) →
      hmGet pp name = hmGet acc name := by
  induction segs with
  | nil =>
    intro parts acc pp h hq
    cases parts with
    | nil => simp [matchSegs] at h; subst h; rfl
    | cons p ps => simp [matchSegs] at h
  | cons seg segs ih =>
    intro parts acc pp h hq
    cases parts with
    | nil => cases seg <;> simp [matchSegs] at h
    | cons part parts =>
      cases seg with
      | Literal lit =>
        simp only [matchSegs] at h
        by_cases hl : lit = part
        · rw [if_pos hl] at h
          refine ih parts acc pp h ?_
          intro q hqm
          exact hq q (by rw [List.zip_cons_cons]; exact List.mem_cons_of_mem _ hqm)
        · rw [if_neg hl] at h
          cases h
      | Param n' =>
        simp only [matchSegs] at h
        have hn : ¬ n' = name := by
          have hmem := hq (Segment.Param n', part)
            (by rw [List.zip_cons_cons]; exact List.mem_cons_self _ _)
          intro he
          exact hmem (by rw [he])
        have hrest : hmGet pp name = hmGet (hmInsert acc n' part) name := by
          refine ih parts _ pp h ?_
          intro q hqm
          exact hq q (by rw [List.zip_cons_cons]; exact List.mem_cons_of_mem _ hqm)
        rw [hrest, hmGet_hmInsert, if_neg hn]

theorem matchSegs_get_last (name : String) (segs : List Segment) :
    ∀ parts acc pp l1 part l2, matchSegs segs parts acc = some pp →
      segs.zip parts = l1 ++ (Segment.Param name, part) :: l2 →
      (∀ q ∈ l2, q.1 ≠ Segment.Param name) →
      hmGet pp name = some part := by
  induction segs with
  | nil =>
    intro parts acc pp l1 part l2 h hz hl
    cases parts with
    | nil => cases l1 <;> simp [List.zip] at hz
    | cons p ps => simp [matchSegs] at h
  | cons seg segs ih =>
    intro parts acc pp l1 part l2 h hz hl
    cases parts with
    | nil => cases seg <;> simp [matchSegs] at h
    | cons part0 parts =>
      rw [List.zip_cons_cons] at hz
      cases l1 with
      | nil =>
        rw [List.nil_append] at hz
        injection hz with hq hzl
        injection hq with hseg hp0
        subst hseg
        rw [← hp0]
        simp only [matchSegs] at h
        have heq : hmGet pp name = hmGet (hmInsert acc name part0) name := by
          refine matchSegs_get_no_param name segs parts _ pp h ?_
          intro q hqm
          exact hl q (hzl ▸ hqm)
        rw [heq, hmGet_hmInsert, if_pos rfl]
      | cons q l1' =>
        rw [List.cons_append] at hz
        injection hz with hq hz'
        cases seg with
        | Literal lit =>
          simp only [matchSegs] at h
          by_cases hlp : lit = part0
          · rw [if_pos hlp] at h
            exact ih parts acc pp l1' part l2 h hz' hl
          · rw [if_neg hlp] at h
            cases h
        | Param n' =>
          simp only [matchSegs] at h
          exact ih parts _ pp l1' part l2 h hz' hl

theorem matchSegs_get_isSome (name : String) (segs : List Segment) :
    ∀ parts acc pp, matchSegs segs parts acc = some pp →
      ((hmGet pp name).isSome ↔
        (∃ part, (Segment.Param name, part) ∈ segs.zip parts) ∨
          (hmGet acc name).isSome) := by
  induction segs with
  | nil =>
    intro parts acc pp h
    cases parts with
    | nil => simp [matchSegs] at h; subst h; simp [List.zip]
    | cons p ps => simp [matchSegs] at h
  | cons seg segs ih =>
    intro parts acc pp h
    cases parts with
    | nil => cases seg <;> simp [matchSegs] at h
    | cons part0 parts =>
      cases seg with
      | Literal lit =>
        simp only [matchSegs] at h
        by_cases hl : lit = part0
        · rw [if_pos hl] at h
          rw [ih parts acc pp h, List.zip_cons_cons]
          constructor
          · rintro (⟨part, hmem⟩ | hacc)
            · exact Or.inl ⟨part, List.mem_cons_of_mem _ hmem⟩
            · exact Or.inr hacc
          · rintro (⟨part, hmem⟩ | hacc)
            · rw [List.mem_cons] at hmem
              rcases hmem with heq | hmem
              · exact absurd (congrArg Prod.fst heq) (by simp)
              · exact Or.inl ⟨part, hmem⟩
            · exact Or.inr hacc
        · rw [if_neg hl] at h
          cases h
      | Param n' =>
        simp only [matchSegs] at h
        rw [ih parts _ pp h, List.zip_cons_cons, hmGet_hmInsert]
        by_cases hn : n' = name
        · subst hn
          rw [if_pos rfl]
          constructor
          · intro _
            exact Or.inl ⟨part0, List.mem_cons_self _ _⟩
          · intro _
            exact Or.inr rfl
        · rw [if_neg hn]
          constructor
          · rintro (⟨part, hmem⟩ | hacc)
            · exact Or.inl ⟨part, List.mem_cons_of_mem _ hmem⟩
            · exact Or.inr hacc
          · rintro (⟨part, hmem⟩ | hacc)
            · rw [List.mem_cons] at hmem
              rcases hmem with heq | hmem
              · have hname : name = n' := by
                  have hfst := congrArg Prod.fst heq
                  simpa using hfst
                exact absurd hname.symm hn
              · exact Or.inl ⟨part, hmem⟩
            · exact Or.inr hacc

theorem match_path_eq_matchSegs (segs : List Segment) (path : String)
    (pp : List (String × String)) (h : match_path segs path = some pp) :
    matchSegs segs (pathComponents path) [] = some pp := by
  unfold match_path at h
  by_cases h1 : segs.isEmpty ∧ (pathComponents path).isEmpty
  · rw [if_pos h1] at h
    obtain ⟨he1, he2⟩ := h1
    rw [List.isEmpty_iff] at he1 he2
    rw [he1, he2, ← h]
    rfl
  · rw [if_neg h1] at h
    by_cases h2 : segs.length ≠ (pathComponents path).length
    · rw [if_pos h2] at h
      cases h
    · rw [if_neg h2] at h
      exact h

theorem match_path_isSome (segs : List Segment) (path : String) :
    (match_path segs path).isSome ↔
      ((pathComponents path).length = segs.length ∧
        ∀ lit part, (Segment.Literal lit, part) ∈ segs.zip (pathComponents path) →
          lit = part) := by
  unfold match_path
  by_cases h1 : segs.isEmpty ∧ (pathComponents path).isEmpty
  · rw [if_pos h1]
    obtain ⟨he1, he2⟩ := h1
    rw [List.isEmpty_iff] at he1 he2
    simp [he1, he2]
  · rw [if_neg h1]
    by_cases h2 : segs.length ≠ (pathComponents path).length
    · rw [if_pos h2]
      simp only [Option.isSome_none, Bool.false_eq_true, false_iff]
      rintro ⟨hlen, -⟩
      exact h2 hlen.symm
    · rw [if_neg h2]
      push_neg at h2
      rw [matchSegs_isSome]
      constructor
      · rintro ⟨hlen, hall⟩
        exact ⟨hlen.symm, hall⟩
      · rintro ⟨hlen, hall⟩
        exact ⟨hlen.symm, hall⟩

/-! ## C3 — path matching -/

/-- C3: matching succeeds iff, after normalizing the path, the component
count equals the segment count and every `Literal` segment equals its
positional component; an empty compiled pattern matches exactly the paths
that normalize to zero components; on success the result binds exactly the
parameter names, and (for a parameter name occurring at a single position,
the case the spec's uniqueness invariant covers) to its positional
component. -/
theorem match_path_spec (segments : List Segment) (path : String) :
    ((match_path segments path).isSome ↔
      ((pathComponents path).length = segments.length ∧
        ∀ lit part,
          (Segment.Literal lit, part) ∈ segments.zip (pathComponents path) →
          lit = part)) ∧
    ((match_path [] path).isSome ↔ pathComponents path = []) ∧
    (∀ pp, match_path segments path = some pp →
      (∀ name, (hmGet pp name).isSome ↔
        ∃ part,
          (Segment.Param name, part) ∈ segments.zip (pathComponents path)) ∧
      (∀ l1 name part l2,
        segments.zip (pathComponents path) =
          l1 ++ (Segment.Param name, part) :: l2 →
        (∀ q ∈ l1 ++ l2, q.1 ≠ Segment.Param name) →
        hmGet pp name = some part)) := by
  refine ⟨match_path_isSome _ _, ?_, ?_⟩
  · rw [match_path_isSome]
    simp [List.length_eq_zero]
  · intro pp hpp
    have hms := match_path_eq_matchSegs _ _ _ hpp
    constructor
    · intro name
      rw [matchSegs_get_isSome name _ _ _ _ hms]
      simp [hmGet]
    · intro l1 name part l2 hz hq
      exact matchSegs_get_last name _ _ _ _ l1 part l2 hms hz
        (fun q hql2 => hq q (List.mem_append_right _ hql2))

/-- C3 witness: `match_path_spec` evaluated for the pattern
`/users/{id}` against the path `/users/42`. -/
theorem match_path_spec_witness :
    match_path (compile_path "/users/\x7bid\x7d") "/users/42" =
      some [("id", "42")] ∧
    hmGet [("id", "42")] "id" = some "42" := by
  refine ⟨by decide, ?_⟩
  have h := (match_path_spec (compile_path "/users/\x7bid\x7d") "/users/42").2.2
    [("id", "42")] (by decide)
  exact h.2 [(Segment.Literal "users", "users")] "id" "42" [] (by decide)
    (by decide)

/-! ## C10 — duplicate parameter names -/

/-- C10: a pattern in which the same parameter name occurs at several
positions is still accepted by registration (which is total and simply
appends the compiled route), and on a successful match the binding for
that name is the path component at the last position where the name
occurs — earlier captures are overwritten. -/
theorem duplicate_param_last_wins :
    (∀ (app : Choko) (p : String) (ms : List String)
        (h : Request → Except String Response),
      (Choko.route app p ms h).routes = app.routes ++
        [{ path_pattern := p, methods := ms.map toUpperStr, handler := h,
           segments := compile_path p }]) ∧
    (∀ (segments : List Segment) (path : String) pp,
      match_path segments path = some pp →
      ∀ l1 name part l2,
        segments.zip (pathComponents path) =
          l1 ++ (Segment.Param name, part) :: l2 →
        (∀ q ∈ l2, q.1 ≠ Segment.Param name) →
        hmGet pp name = some part) := by
  refine ⟨fun app p ms h => rfl, ?_⟩
  intro segs path pp hpp l1 name part l2 hz hq
  exact matchSegs_get_last name _ _ _ _ l1 part l2
    (match_path_eq_matchSegs _ _ _ hpp) hz hq

/-- C10 witness: the pattern `/{a}/{a}` matched against `/x/y` binds `a`
to `y`, the component at the last occurrence. -/
theorem duplicate_param_last_wins_witness :
    match_path (compile_path "/\x7ba\x7d/\x7ba\x7d") "/x/y" =
      some [("a", "y")] ∧
    hmGet [("a", "y")] "a" = some "y" := by
  refine ⟨by decide, ?_⟩
  exact duplicate_param_last_wins.2 (compile_path "/\x7ba\x7d/\x7ba\x7d")
    "/x/y" [("a", "y")] (by decide) [(Segment.Param "a", "x")] "a" "y" []
    (by decide) (by decide)

/-! ## Dispatch-loop lemmas -/

theorem dispatchLoop_cons_none (parse : String → Option Json)
    (event : ApiGatewayProxyRequest) (method path : String) (r : Route)
    (rest : List Route) (flag : Bool)
    (hm : match_path r.segments path = none) :
    dispatchLoop parse event method path (r :: rest) flag =
      dispatchLoop parse event method path rest flag := by
  simp [dispatchLoop, hm]

theorem dispatchLoop_cons_skip (parse : String → Option Json)
    (event : ApiGatewayProxyRequest) (method path : String) (r : Route)
    (rest : List Route) (flag : Bool) (pp : List (String × String))
    (hm : match_path r.segments path = some pp)
    (hc : method ∉ r.methods) :
    dispatchLoop parse event method path (r :: rest) flag =
      dispatchLoop parse event method path rest true := by
  have hc' : r.methods.contains method = false := by
    rw [← Bool.not_eq_true]
    intro hcc
    exact hc (List.elem_iff.mp hcc)
  simp [dispatchLoop, hm, hc]

theorem dispatchLoop_cons_hit (parse : String → Option Json)
    (event : ApiGatewayProxyRequest) (method path : String) (r : Route)
    (rest : List Route) (flag : Bool) (pp : List (String × String))
    (hm : match_path r.segments path = some pp)
    (hc : method ∈ r.methods) :
    dispatchLoop parse event method path (r :: rest) flag =
      handlerOutcome parse event r pp := by
  have hc' : r.methods.contains method = true := List.elem_iff.mpr hc
  simp [dispatchLoop, hm, hc]

theorem dispatchLoop_skip (parse : String → Option Json)
    (event : ApiGatewayProxyRequest) (method path : String)
    (rs rest : List Route) (flag : Bool)
    (h : ∀ r' ∈ rs, match_path r'.segments path = none ∨ method ∉ r'.methods) :
    dispatchLoop parse event method path (rs ++ rest) flag =
      dispatchLoop parse event method path rest
        (flag || rs.any (fun r' => (match_path r'.segments path).isSome)) := by
  induction rs generalizing flag with
  | nil => simp
  | cons r rs ih =>
    rw [List.cons_append]
    have hrest : ∀ r' ∈ rs, match_path r'.segments path = none ∨
        method ∉ r'.methods :=
      fun r' h' => h r' (List.mem_cons_of_mem _ h')
    rcases h r (List.mem_cons_self _ _) with hm | hm
    · rw [dispatchLoop_cons_none parse event method path r _ flag hm]
      rw [ih flag hrest]
      simp [hm]
    · cases hmp : match_path r.segments path with
      | none =>
        rw [dispatchLoop_cons_none parse event method path r _ flag hmp]
        rw [ih flag hrest]
        simp [hmp]
      | some pp =>
        rw [dispatchLoop_cons_skip parse event method path r _ flag pp hmp hm]
        rw [ih true hrest]
        simp [hmp]

theorem dispatchLoop_select (parse : String → Option Json)
    (event : ApiGatewayProxyRequest) (method path : String)
    (rs1 : List Route) (r : Route) (rs2 : List Route)
    (pp : List (String × String)) (flag : Bool)
    (hfirst : ∀ r' ∈ rs1,
      match_path r'.segments path = none ∨ method ∉ r'.methods)
    (hmatch : match_path r.segments path = some pp)
    (hmeth : method ∈ r.methods) :
    dispatchLoop parse event method path (rs1 ++ r :: rs2) flag =
      handlerOutcome parse event r pp := by
  rw [dispatchLoop_skip parse event method path rs1 _ flag hfirst]
  exact dispatchLoop_cons_hit parse event method path r rs2 _ pp hmatch hmeth

theorem dispatchLoop_all_fail (parse : String → Option Json)
    (event : ApiGatewayProxyRequest) (method path : String)
    (rs : List Route) (flag : Bool)
    (h : ∀ r' ∈ rs, match_path r'.segments path = none ∨ method ∉ r'.methods) :
    dispatchLoop parse event method path rs flag =
      (if flag || rs.any (fun r' => (match_path r'.segments path).isSome)
       then error_response 405 "Method Not Allowed"
       else error_response 404 "Not Found") := by
  have hskip := dispatchLoop_skip parse event method path rs [] flag h
  rw [List.append_nil] at hskip
  rw [hskip]
  rfl

/-! ## C1 — first-match-wins dispatch -/

/-- C1: when `rs1 ++ r :: rs2` is the route table in registration order,
every route of the prefix `rs1` fails on path or on method, and `r`
matches the inbound path with parameters `pp` and allows the
(upper-cased) inbound method, then dispatch produces exactly `r`'s
handler outcome, and the result does not depend on the later routes
`rs2` at all — they are never considered. -/
theorem dispatch_first_match (parse : String → Option Json) (app : Choko)
    (event : ApiGatewayProxyRequest) (rs1 : List Route) (r : Route)
    (rs2 : List Route) (pp : List (String × String))
    (happ : app.routes = rs1 ++ r :: rs2)
    (hfirst : ∀ r' ∈ rs1,
      match_path r'.segments (event.path.getD "/") = none ∨
        toUpperStr event.http_method ∉ r'.methods)
    (hmatch : match_path r.segments (event.path.getD "/") = some pp)
    (hmeth : toUpperStr event.http_method ∈ r.methods) :
    Choko.dispatch parse app event = handlerOutcome parse event r pp ∧
    ∀ rs2' : List Route,
      Choko.dispatch parse { app with routes := rs1 ++ r :: rs2' } event =
        Choko.dispatch parse app event := by
  have h1 : ∀ rs2'' : List Route,
      dispatchLoop parse event (toUpperStr event.http_method)
        (event.path.getD "/") (rs1 ++ r :: rs2'') false =
        handlerOutcome parse event r pp :=
    fun rs2'' => dispatchLoop_select parse event _ _ rs1 r rs2'' pp false
      hfirst hmatch hmeth
  constructor
  · show dispatchLoop parse event (toUpperStr event.http_method)
      (event.path.getD "/") app.routes false = _
    rw [happ]
    exact h1 rs2
  · intro rs2'
    show dispatchLoop parse event (toUpperStr event.http_method)
        (event.path.getD "/") (rs1 ++ r :: rs2') false =
      dispatchLoop parse event (toUpperStr event.http_method)
        (event.path.getD "/") app.routes false
    rw [happ, h1 rs2', h1 rs2]

/-- C1 witness: in `exApp2` both routes cover `GET /x`; dispatch selects
the first one's handler outcome. -/
theorem dispatch_first_match_witness :
    Choko.dispatch exParse exApp2 (mkEvent "GET" "/x") =
      handlerOutcome exParse (mkEvent "GET" "/x") exRoute1 [] :=
  (dispatch_first_match exParse exApp2 (mkEvent "GET" "/x") [] exRoute1
    [exRoute2] [] rfl (by simp) (by decide) (by decide)).1

/-! ## C2 — 404/405 fallback -/

/-- C2: when no route satisfies both path and method, dispatch produces
the 405 Method-Not-Allowed envelope if at least one route's pattern
matched the path, and the 404 Not-Found envelope if no pattern matched
the path. -/
theorem dispatch_fallback (parse : String → Option Json) (app : Choko)
    (event : ApiGatewayProxyRequest)
    (hnone : ∀ r ∈ app.routes,
      match_path r.segments (event.path.getD "/") = none ∨
        toUpperStr event.http_method ∉ r.methods) :
    ((∃ r ∈ app.routes,
        (match_path r.segments (event.path.getD "/")).isSome) →
      Choko.dispatch parse app event =
        { status_code := 405,
          headers := [("content-type", "application/json")],
          body := some (Json.obj [("error", Json.str "Method Not Allowed")]) }) ∧
    ((∀ r ∈ app.routes, match_path r.segments (event.path.getD "/") = none) →
      Choko.dispatch parse app event =
        { status_code := 404,
          headers := [("content-type", "application/json")],
          body := some (Json.obj [("error", Json.str "Not Found")]) }) := by
  have hall := dispatchLoop_all_fail parse event (toUpperStr event.http_method)
    (event.path.getD "/") app.routes false hnone
  constructor
  · rintro ⟨r, hr, hsome⟩
    show dispatchLoop parse event (toUpperStr event.http_method)
      (event.path.getD "/") app.routes false = _
    rw [hall]
    have hany : app.routes.any
        (fun r' => (match_path r'.segments (event.path.getD "/")).isSome) =
        true :=
      List.any_eq_true.mpr ⟨r, hr, hsome⟩
    rw [hany]
    rfl
  · intro hnm
    show dispatchLoop parse event (toUpperStr event.http_method)
      (event.path.getD "/") app.routes false = _
    rw [hall]
    have hany : app.routes.any
        (fun r' => (match_path r'.segments (event.path.getD "/")).isSome) =
        false := by
      rw [List.any_eq_false]
      intro r hr
      rw [hnm r hr]
      simp
    rw [hany]
    rfl

/-- C2 witness: `exApp2` (both routes at `/x`) gives the 405 envelope for
`DELETE /x` and the 404 envelope for `GET /y`. -/
theorem dispatch_fallback_witness :
    Choko.dispatch exParse exApp2 (mkEvent "DELETE" "/x") =
      { status_code := 405,
        headers := [("content-type", "application/json")],
        body := some (Json.obj [("error", Json.str "Method Not Allowed")]) } ∧
    Choko.dispatch exParse exApp2 (mkEvent "GET" "/y") =
      { status_code := 404,
        headers := [("content-type", "application/json")],
        body := some (Json.obj [("error", Json.str "Not Found")]) } :=
  ⟨(dispatch_fallback exParse exApp2 (mkEvent "DELETE" "/x") (by decide)).1
      (by decide),
   (dispatch_fallback exParse exApp2 (mkEvent "GET" "/y") (by decide)).2
      (by decide)⟩

/-! ## C6 — handler failure becomes a 500 envelope -/

/-- C6: when the selected route's handler fails with description `d`,
dispatch still returns a well-formed envelope (it is a total function):
status 500 with JSON body `{"error": "Internal Server Error: <d>"}`,
the description included verbatim. -/
theorem dispatch_handler_failure (parse : String → Option Json) (app : Choko)
    (event : ApiGatewayProxyRequest) (rs1 : List Route) (r : Route)
    (rs2 : List Route) (pp : List (String × String)) (d : String)
    (happ : app.routes = rs1 ++ r :: rs2)
    (hfirst : ∀ r' ∈ rs1,
      match_path r'.segments (event.path.getD "/") = none ∨
        toUpperStr event.http_method ∉ r'.methods)
    (hmatch : match_path r.segments (event.path.getD "/") = some pp)
    (hmeth : toUpperStr event.http_method ∈ r.methods)
    (hfail : r.handler (build_request parse event pp) = Except.error d) :
    Choko.dispatch parse app event =
      { status_code := 500,
        headers := [("content-type", "application/json")],
        body := some (Json.obj [("error",
          Json.str ("Internal Server Error: " ++ d))]) } := by
  have hsel := dispatchLoop_select parse event (toUpperStr event.http_method)
    (event.path.getD "/") rs1 r rs2 pp false hfirst hmatch hmeth
  show dispatchLoop parse event (toUpperStr event.http_method)
    (event.path.getD "/") app.routes false = _
  rw [happ, hsel]
  unfold handlerOutcome
  rw [hfail]
  rfl

/-- C6 witness: the failing handler of `exAppFail` surfaces as the 500
envelope carrying `Internal Server Error: boom`. -/
theorem dispatch_handler_failure_witness :
    Choko.dispatch exParse exAppFail (mkEvent "GET" "/fail") =
      { status_code := 500,
        headers := [("content-type", "application/json")],
        body := some (Json.obj [("error",
          Json.str ("Internal Server Error: " ++ "boom"))]) } :=
  dispatch_handler_failure exParse exAppFail (mkEvent "GET" "/fail") []
    exRouteFail [] [] "boom" rfl (by simp) (by decide) (by decide) rfl

/-! ## C7 — success-envelope encoding -/

theorem hdrFold_get_untouched (l : List (String × String)) :
    ∀ (init : List (String × String)) (n : String),
      (∀ kv ∈ l, (headerNameValid kv.1 && headerValueValid kv.2) = true →
        headerNameLower kv.1 ≠ n) →
      hmGet (l.foldl (fun h kv =>
        if headerNameValid kv.1 && headerValueValid kv.2 then
          hmInsert h (headerNameLower kv.1) kv.2
        else h) init) n = hmGet init n := by
  induction l with
  | nil => intro init n _; rfl
  | cons kv rest ih =>
    intro init n h
    rw [List.foldl_cons]
    have hrest : ∀ kv' ∈ rest,
        (headerNameValid kv'.1 && headerValueValid kv'.2) = true →
        headerNameLower kv'.1 ≠ n :=
      fun kv' h' => h kv' (List.mem_cons_of_mem _ h')
    by_cases hv : (headerNameValid kv.1 && headerValueValid kv.2) = true
    · rw [if_pos hv, ih _ n hrest, hmGet_hmInsert,
        if_neg (h kv (List.mem_cons_self _ _) hv)]
    · rw [if_neg hv]
      exact ih _ n hrest

theorem hdrFold_get_unique (l : List (String × String)) :
    ∀ (init : List (String × String)) (k v : String), (k, v) ∈ l →
      (headerNameValid k && headerValueValid v) = true →
      (∀ kv' ∈ l, headerNameLower kv'.1 = headerNameLower k → kv' = (k, v)) →
      hmGet (l.foldl (fun h kv =>
        if headerNameValid kv.1 && headerValueValid kv.2 then
          hmInsert h (headerNameLower kv.1) kv.2
        else h) init) (headerNameLower k) = some v := by
  induction l with
  | nil => intro init k v hmem; cases hmem
  | cons kv rest ih =>
    intro init k v hmem hvalid huniq
    rw [List.foldl_cons]
    by_cases hr : (k, v) ∈ rest
    · exact ih _ k v hr hvalid
        (fun kv' h' => huniq kv' (List.mem_cons_of_mem _ h'))
    · have hkv : kv = (k, v) := by
        rcases List.mem_cons.mp hmem with he | he
        · exact he.symm
        · exact absurd he hr
      subst hkv
      rw [if_pos hvalid]
      rw [hdrFold_get_untouched rest _ _ ?hnone]
      · rw [hmGet_hmInsert, if_pos rfl]
      case hnone =>
        intro kv' hkv' _ hlow
        have h2 := huniq kv' (List.mem_cons_of_mem _ hkv') hlow
        exact hr (h2 ▸ hkv')

/-- C7: the encoded envelope keeps the Response's status code, carries the
structured body, starts its header map at `content-type: application/json`,
inserts each transport-valid Response header under its lowercased name
(overriding the default on a name collision), and silently drops any
Response header whose name or value is invalid — for a name no valid
Response header maps to, the final map reads exactly as the base
`content-type`-only map. -/
theorem build_apigw_response_spec (resp : Response) :
    (build_apigw_response resp).status_code = resp.status_code ∧
    (build_apigw_response resp).body = some resp.body ∧
    (∀ k v, (k, v) ∈ resp.headers →
      (headerNameValid k && headerValueValid v) = true →
      (∀ kv' ∈ resp.headers,
        headerNameLower kv'.1 = headerNameLower k → kv' = (k, v)) →
      hmGet (build_apigw_response resp).headers (headerNameLower k) =
        some v) ∧
    (∀ n, (∀ kv ∈ resp.headers, headerNameLower kv.1 = n →
        ¬ ((headerNameValid kv.1 && headerValueValid kv.2) = true)) →
      hmGet (build_apigw_response resp).headers n =
        hmGet [("content-type", "application/json")] n) := by
  refine ⟨rfl, rfl, ?_, ?_⟩
  · intro k v hmem hvalid huniq
    show hmGet (resp.headers.foldl _ [("content-type", "application/json")])
      (headerNameLower k) = some v
    exact hdrFold_get_unique resp.headers _ k v hmem hvalid huniq
  · intro n hinv
    show hmGet (resp.headers.foldl _ [("content-type", "application/json")])
      n = _
    refine hdrFold_get_untouched resp.headers _ n ?_
    intro kv hkv hv hlow
    exact hinv kv hkv hlow hv

/-- C7 witness: `build_apigw_response_spec` evaluated at `exResp` — the
valid header `X-Custom` survives under its lowercase name, the header with
a newline in its name is dropped, and the content-type default remains. -/
theorem build_apigw_response_spec_witness :
    hmGet (build_apigw_response exResp).headers (headerNameLower "X-Custom") =
      some "value1" ∧
    hmGet (build_apigw_response exResp).headers "bad\nname" = none ∧
    hmGet (build_apigw_response exResp).headers "content-type" =
      some "application/json" := by
  refine ⟨?_, ?_, ?_⟩
  · exact (build_apigw_response_spec exResp).2.2.1 "X-Custom" "value1"
      (by decide) (by decide) (by decide)
  · have h := (build_apigw_response_spec exResp).2.2.2 "bad\nname" (by decide)
    rw [h]
    decide
  · have h := (build_apigw_response_spec exResp).2.2.2 "content-type"
      (by decide)
    rw [h]
    decide

/-! ## C8 — body decoding -/

/-- C8: the decoded Request's structured body is present iff the raw body
is present and parses; on parse failure the structured body is simply
absent while the raw body is passed through unchanged; with no raw body
the structured body is absent; and a successful parse is carried over
as-is. -/
theorem build_request_spec (parse : String → Option Json)
    (event : ApiGatewayProxyRequest) (pp : List (String × String)) :
    ((build_request parse event pp).json_body.isSome ↔
      ∃ s, event.body = some s ∧ (parse s).isSome) ∧
    (build_request parse event pp).body = event.body ∧
    (∀ s, event.body = some s → parse s = none →
      (build_request parse event pp).json_body = none ∧
      (build_request parse event pp).body = some s) ∧
    (event.body = none → (build_request parse event pp).json_body = none) ∧
    (∀ s j, event.body = some s → parse s = some j →
      (build_request parse event pp).json_body = some j) := by
  refine ⟨?_, rfl, ?_, ?_, ?_⟩
  · show (event.body.bind parse).isSome ↔ _
    cases hb : event.body with
    | none => simp
    | some s => simp
  · intro s hs hp
    constructor
    · show event.body.bind parse = none
      rw [hs]
      simpa using hp
    · show event.body = some s
      exact hs
  · intro hn
    show event.body.bind parse = none
    rw [hn]
    rfl
  · intro s j hs hj
    show event.body.bind parse = some j
    rw [hs]
    simpa using hj

/-- C8 witness: with `exParse` (only `"1"` parses), a `"1"` body yields a
structured body, an `"x"` body yields none while keeping the raw body, and
an absent body yields none. -/
theorem build_request_spec_witness :
    (build_request exParse (exEventBody (some "x")) []).json_body = none ∧
    (build_request exParse (exEventBody (some "x")) []).body = some "x" ∧
    (build_request exParse (exEventBody (some "1")) []).json_body =
      some (Json.num 1) ∧
    (build_request exParse (exEventBody none) []).json_body = none := by
  refine ⟨?_, ?_, ?_, ?_⟩
  · exact ((build_request_spec exParse (exEventBody (some "x")) []).2.2.1 "x"
      rfl (by simp [exParse])).1
  · exact ((build_request_spec exParse (exEventBody (some "x")) []).2.2.1 "x"
      rfl (by simp [exParse])).2
  · exact (build_request_spec exParse (exEventBody (some "1")) []).2.2.2.2 "1"
      (Json.num 1) rfl (by simp [exParse])
  · exact (build_request_spec exParse (exEventBody none) []).2.2.2.1 rfl

/-! ## C9 — error envelopes carry the JSON content-type header -/

/-- C9: every envelope produced by `error_response` — in particular the
404 Not-Found, 405 Method-Not-Allowed, and 500 handler-failure envelopes
that `dispatch` emits — carries `content-type: application/json`. -/
theorem error_envelopes_content_type :
    (∀ (status : Int) (message : String),
      hmGet (error_response status message).headers "content-type" =
        some "application/json") ∧
    hmGet (error_response 404 "Not Found").headers "content-type" =
      some "application/json" ∧
    hmGet (error_response 405 "Method Not Allowed").headers "content-type" =
      some "application/json" ∧
    (∀ d : String,
      hmGet (error_response 500 ("Internal Server Error: " ++ d)).headers
        "content-type" = some "application/json") := by
  refine ⟨fun _ _ => ?_, ?_, ?_, fun _ => ?_⟩ <;> rfl

/-! ## C4 — empty parameter name at registration -/

/-- C4 counterexample: registration does not reject the pattern `{}`.
`compile_path` turns the component into `Param ""`, `Choko.route` stores
the route without any error, and the degenerate parameter is left to match
time, where it matches any single component under the empty name. -/
theorem empty_param_not_rejected :
    compile_path "\x7b\x7d" = [Segment.Param ""] ∧
    (Choko.route (Choko.new "app") "\x7b\x7d" ["GET"] exHandlerA).routes.length
      = 1 ∧
    match_path (compile_path "\x7b\x7d") "/x" = some [("", "x")] := by
  refine ⟨by decide, rfl, by decide⟩

/-- C4 amended: a pattern containing a component that is exactly `{}` is
accepted by registration — which is total and stores the route — with the
component compiled to a `Param` whose name is empty; nothing is rejected
at registration time. -/
theorem empty_param_accepted (p : String)
    (hp : "\x7b\x7d" ∈ pathComponents p) :
    Segment.Param "" ∈ compile_path p ∧
    ∀ (app : Choko) (ms : List String) (h : Request → Except String Response),
      (Choko.route app p ms h).routes.length = app.routes.length + 1 := by
  constructor
  · unfold compile_path
    refine List.mem_map.mpr ⟨"\x7b\x7d", hp, ?_⟩
    decide
  · intro app ms h
    simp [Choko.route]

/-- C4 amended witness: `empty_param_accepted` evaluated at the pattern
`/{}`. -/
theorem empty_param_accepted_witness :
    Segment.Param "" ∈ compile_path "/\x7b\x7d" ∧
    (Choko.route (Choko.new "w") "/\x7b\x7d" ["GET"] exHandlerB).routes.length
      = 1 := by
  have h := empty_param_accepted "/\x7b\x7d" (by decide)
  exact ⟨h.1, h.2 (Choko.new "w") ["GET"] exHandlerB⟩
